import Mathlib

/-!
Shallow embedding of the short-link base-62 codec and the shopping-list
renderer from `api/utils.py`, together with the short-link view's decoding
step from `api/views.py`, and proofs of the specified properties.

Python strings are modelled as `List Char` for the codec (and as `String`
for the renderer's output), Python `int` as `Int`/`Nat`, and raised
`ValueError`s as the `Except.error` branch of `Except String _`.
-/

set_option autoImplicit false

/-- `BASE62_ALPHABET = string.digits + string.ascii_letters`:
digits, then lowercase, then uppercase letters. -/
def BASE62_ALPHABET : List Char :=
  "0123456789abcdefghijklmnopqrstuvwxyzABCDEFGHIJKLMNOPQRSTUVWXYZ".toList

/-- `BASE = len(BASE62_ALPHABET)`. -/
def BASE : Nat := BASE62_ALPHABET.length

/-- First-occurrence index search, modelling Python `str.index` on the
alphabet: `none` models the `ValueError` raised when the character is
absent. -/
def indexOfAux (c : Char) : List Char → Nat → Option Nat
  | [], _ => none
  | a :: rest, i => if a = c then some i else indexOfAux c rest (i + 1)

/-- `BASE62_ALPHABET.index(char)`, with `none` for the `ValueError` case. -/
def charIndex (c : Char) : Option Nat :=
  indexOfAux c BASE62_ALPHABET 0

/-- `BASE62_ALPHABET[i]`; the default is never reached since every lookup
uses an index `< BASE`. -/
def alphaChar (i : Nat) : Char :=
  BASE62_ALPHABET.getD i ' '

/-- A Python value passed to `encode_base62`: either an `int` or a value of
some other type (the `not isinstance(number, int)` branch). -/
inductive PyNum where
  | int (value : Int)
  | nonInt
deriving DecidableEq

/-- The `while number > 0` loop of `encode_base62`: each iteration divides
by `BASE` and prepends the digit character for the remainder. -/
def encodeLoop (n : Nat) (acc : List Char) : List Char :=
  if h : n = 0 then acc
  else encodeLoop (n / BASE) (alphaChar (n % BASE) :: acc)
termination_by n
decreasing_by
  exact Nat.div_lt_self (Nat.pos_of_ne_zero h) (by decide)

/-- `encode_base62` restricted to its non-error path: the `number == 0`
early return, else the loop. -/
def encodeNat (n : Nat) : List Char :=
  if n = 0 then [alphaChar 0] else encodeLoop n []

/-- `encode_base62(number)`: rejects non-ints and negative ints with a
`ValueError`, otherwise encodes. -/
def encode_base62 : PyNum → Except String (List Char)
  | PyNum.nonInt => Except.error "Число должно быть неотрицательным целым."
  | PyNum.int number =>
      if number < 0 then Except.error "Число должно быть неотрицательным целым."
      else Except.ok (encodeNat number.toNat)

/-- Fuel-indexed version of the `while` loop of `encode_base62`, one fuel
unit per iteration; `none` models non-termination within the given fuel. -/
def encodeLoopFuel (fuel n : Nat) (acc : List Char) : Option (List Char) :=
  match fuel, n with
  | _, 0 => some acc
  | 0, _ => none
  | f + 1, m => encodeLoopFuel f (m / BASE) (alphaChar (m % BASE) :: acc)

/-- The `for i, char in enumerate(encoded_str)` loop of `decode_base62`:
`length` is `len(encoded_str)`, `i` the current index, `decoded` the
accumulator; the exponent is `length - (i + 1)` as in the source. -/
def decodeLoop (length : Nat) : List Char → Nat → Nat → Except String Nat
  | [], _, decoded => Except.ok decoded
  | c :: rest, i, decoded =>
      match charIndex c with
      | none =>
          Except.error ("Недопустимый символ \"" ++ String.singleton c ++
            "\" в строке Base62")
      | some index =>
          decodeLoop length rest (i + 1) (decoded + index * BASE ^ (length - (i + 1)))

/-- `decode_base62(encoded_str)`. -/
def decode_base62 (encoded_str : List Char) : Except String Nat :=
  decodeLoop encoded_str.length encoded_str 0 0

/-- Position-free restatement of the decoding loop: the exponent of the
current digit is the length of the remaining suffix. -/
def decodeAux : List Char → Nat → Except String Nat
  | [], decoded => Except.ok decoded
  | c :: rest, decoded =>
      match charIndex c with
      | none =>
          Except.error ("Недопустимый символ \"" ++ String.singleton c ++
            "\" в строке Base62")
      | some index =>
          decodeAux rest (decoded + index * BASE ^ rest.length)

/-- The spec's reading of a string as a base-62 positional number, most
significant digit first. -/
def base62Value : List Char → Nat
  | [] => 0
  | c :: rest => (charIndex c).getD 0 * BASE ^ rest.length + base62Value rest

/-- One aggregated ingredient row, a dict with three optional keys
(`ingredient__name`, `ingredient__measurement_unit`, `total_amount`);
`none` models an absent key. -/
structure IngredientRow where
  name : Option String
  measurement_unit : Option String
  total_amount : Option Nat

/-- `"".join(parts)`. -/
def joinParts : List String → String
  | [] => ""
  | p :: rest => p ++ joinParts rest

/-- `generate_shopping_list_content(ingredients_queryset)`: header part,
then either the empty-list placeholder or one appended part per row, with
`dict.get` defaults for missing keys. -/
def generate_shopping_list_content (ingredients_queryset : List IngredientRow) : String :=
  let parts : List String := ["Список покупок:\n"]
  let parts :=
    if ingredients_queryset.isEmpty then
      parts ++ ["Ваш список пуст."]
    else
      ingredients_queryset.foldl
        (fun acc item =>
          acc ++ ["\n- " ++ item.name.getD "Без названия" ++ " (" ++
            item.measurement_unit.getD "шт." ++ ") — " ++
            toString (item.total_amount.getD 0)])
        parts
  joinParts parts

/-- Outcome of the decoding step of `RecipeShortLinkRedirectView.get`:
either an `Http404` or a lookup of the decoded recipe id. -/
inductive ShortLinkResult where
  | notFound (msg : String)
  | lookup (recipeId : Nat)
deriving DecidableEq

/-- The decoding step of `RecipeShortLinkRedirectView.get`: a missing
`short_id` and a `ValueError` from `decode_base62` both become `Http404`;
otherwise the decoded id is looked up. -/
def shortLinkResolve : Option (List Char) → ShortLinkResult
  | none => ShortLinkResult.notFound "Короткий идентификатор не предоставлен."
  | some short_id =>
      match decode_base62 short_id with
      | Except.error _ => ShortLinkResult.notFound "Некорректная короткая ссылка."
      | Except.ok recipe_id => ShortLinkResult.lookup recipe_id

theorem BASE_eq : BASE = 62 := by decide

theorem one_lt_BASE : 1 < BASE := by decide

theorem indexOfAux_le {c : Char} :
    ∀ (l : List Char) (i j : Nat), indexOfAux c l i = some j → i ≤ j := by
  intro l
  induction l with
  | nil => intro i j h; simp [indexOfAux] at h
  | cons a rest ih =>
      intro i j h
      simp only [indexOfAux] at h
      by_cases hc : a = c
      · simp [hc] at h; omega
      · have := ih (i + 1) j (by simpa [hc] using h)
        omega

theorem indexOfAux_lt {c : Char} :
    ∀ (l : List Char) (i j : Nat), indexOfAux c l i = some j → j < i + l.length := by
  intro l
  induction l with
  | nil => intro i j h; simp [indexOfAux] at h
  | cons a rest ih =>
      intro i j h
      simp only [indexOfAux] at h
      by_cases hc : a = c
      · simp [hc] at h; simp only [List.length_cons]; omega
      · have := ih (i + 1) j (by simpa [hc] using h)
        simp only [List.length_cons]
        omega

theorem indexOfAux_getD {c : Char} :
    ∀ (l : List Char) (i j : Nat), indexOfAux c l i = some j →
      l.getD (j - i) ' ' = c := by
  intro l
  induction l with
  | nil => intro i j h; simp [indexOfAux] at h
  | cons a rest ih =>
      intro i j h
      simp only [indexOfAux] at h
      by_cases hc : a = c
      · simp [hc] at h; simp [← h, hc]
      · have h' : indexOfAux c rest (i + 1) = some j := by simpa [hc] using h
        have hle := indexOfAux_le rest (i + 1) j h'
        have := ih (i + 1) j h'
        have hji : j - i = (j - (i + 1)) + 1 := by omega
        simpa [hji] using this

theorem mem_of_indexOfAux {c : Char} :
    ∀ (l : List Char) (i j : Nat), indexOfAux c l i = some j → c ∈ l := by
  intro l
  induction l with
  | nil => intro i j h; simp [indexOfAux] at h
  | cons a rest ih =>
      intro i j h
      simp only [indexOfAux] at h
      by_cases hc : a = c
      · simp [hc]
      · exact List.mem_cons_of_mem a (ih (i + 1) j (by simpa [hc] using h))

theorem indexOfAux_isSome_of_mem {c : Char} :
    ∀ (l : List Char), c ∈ l → ∀ i, (indexOfAux c l i).isSome := by
  intro l
  induction l with
  | nil => intro h; simp at h
  | cons a rest ih =>
      intro h i
      simp only [indexOfAux]
      by_cases hc : a = c
      · simp [hc]
      · have : c ∈ rest := by
          rcases List.mem_cons.mp h with h' | h'
          · exact absurd h'.symm hc
          · exact h'
        simpa [hc] using ih this (i + 1)

theorem charIndex_lt_BASE {c : Char} {j : Nat} (h : charIndex c = some j) : j < BASE := by
  simpa [BASE] using indexOfAux_lt BASE62_ALPHABET 0 j h

theorem alphaChar_charIndex {c : Char} {j : Nat} (h : charIndex c = some j) :
    alphaChar j = c := by
  simpa [alphaChar] using indexOfAux_getD BASE62_ALPHABET 0 j h

theorem charIndex_isSome_iff_mem {c : Char} :
    (charIndex c).isSome ↔ c ∈ BASE62_ALPHABET := by
  constructor
  · intro h
    rcases Option.isSome_iff_exists.mp h with ⟨j, hj⟩
    exact mem_of_indexOfAux BASE62_ALPHABET 0 j hj
  · intro h
    exact indexOfAux_isSome_of_mem BASE62_ALPHABET h 0

theorem charIndex_alphaChar_fin :
    ∀ r : Fin 62, charIndex (alphaChar r.val) = some r.val := by decide

theorem charIndex_alphaChar {r : Nat} (h : r < BASE) :
    charIndex (alphaChar r) = some r :=
  charIndex_alphaChar_fin ⟨r, BASE_eq ▸ h⟩

theorem decodeLoop_eq_decodeAux :
    ∀ (l : List Char) (i decoded : Nat),
      decodeLoop (i + l.length) l i decoded = decodeAux l decoded := by
  intro l
  induction l with
  | nil => intro i decoded; rfl
  | cons c rest ih =>
      intro i decoded
      simp only [decodeLoop, decodeAux]
      cases hc : charIndex c with
      | none => rfl
      | some index =>
          have hlen : i + (c :: rest).length = (i + 1) + rest.length := by
            simp only [List.length_cons]; omega
          have hexp : i + 1 + rest.length - (i + 1) = rest.length := by omega
          simp only [hlen, hexp]
          exact ih (i + 1) (decoded + index * BASE ^ rest.length)

theorem decode_eq_decodeAux (s : List Char) :
    decode_base62 s = decodeAux s 0 := by
  have := decodeLoop_eq_decodeAux s 0 0
  simpa [decode_base62] using this

theorem decodeAux_ok :
    ∀ (l : List Char) (decoded : Nat), (∀ c ∈ l, (charIndex c).isSome) →
      decodeAux l decoded = Except.ok (decoded + base62Value l) := by
  intro l
  induction l with
  | nil => intro decoded _; simp [decodeAux, base62Value]
  | cons c rest ih =>
      intro decoded hvalid
      have hc : (charIndex c).isSome := hvalid c (List.mem_cons_self c rest)
      rcases Option.isSome_iff_exists.mp hc with ⟨index, hidx⟩
      simp only [decodeAux, hidx]
      rw [ih _ (fun x hx => hvalid x (List.mem_cons_of_mem c hx))]
      simp [base62Value, hidx]
      ring_nf

theorem decodeAux_err :
    ∀ (l : List Char) (decoded : Nat), (∃ c ∈ l, charIndex c = none) →
      ∃ m, decodeAux l decoded = Except.error m := by
  intro l
  induction l with
  | nil => intro decoded h; simp at h
  | cons c rest ih =>
      intro decoded h
      simp only [decodeAux]
      cases hc : charIndex c with
      | none => exact ⟨_, rfl⟩
      | some index =>
          rcases h with ⟨x, hx, hxnone⟩
          rcases List.mem_cons.mp hx with rfl | hxrest
          · rw [hc] at hxnone; exact absurd hxnone (by simp)
          · exact ih _ ⟨x, hxrest, hxnone⟩

theorem encodeLoop_zero (acc : List Char) : encodeLoop 0 acc = acc := by
  rw [encodeLoop]
  simp

theorem encodeLoop_pos {n : Nat} (h : n ≠ 0) (acc : List Char) :
    encodeLoop n acc = encodeLoop (n / BASE) (alphaChar (n % BASE) :: acc) := by
  rw [encodeLoop]
  simp [h]

theorem encodeLoop_append (n : Nat) :
    ∀ acc : List Char, encodeLoop n acc = encodeLoop n [] ++ acc := by
  induction n using Nat.strong_induction_on with
  | _ n ih =>
      intro acc
      by_cases h : n = 0
      · simp [h, encodeLoop_zero]
      · have hlt : n / BASE < n := Nat.div_lt_self (Nat.pos_of_ne_zero h) one_lt_BASE
        rw [encodeLoop_pos h acc, encodeLoop_pos h [],
          ih (n / BASE) hlt (alphaChar (n % BASE) :: acc),
          ih (n / BASE) hlt [alphaChar (n % BASE)]]
        simp

theorem base62Value_cons (c : Char) (rest : List Char) :
    base62Value (c :: rest) = (charIndex c).getD 0 * BASE ^ rest.length + base62Value rest :=
  rfl

theorem base62Value_append (l : List Char) (c : Char) :
    base62Value (l ++ [c]) = base62Value l * BASE + (charIndex c).getD 0 := by
  induction l with
  | nil => simp [base62Value]
  | cons a rest ih =>
      rw [List.cons_append, base62Value_cons, base62Value_cons, ih]
      simp only [List.length_append, List.length_cons, List.length_nil, pow_succ, pow_zero]
      ring

theorem encodeLoop_val : ∀ n : Nat, base62Value (encodeLoop n []) = n := by
  intro n
  induction n using Nat.strong_induction_on with
  | _ n ih =>
      by_cases h : n = 0
      · simp [h, encodeLoop_zero, base62Value]
      · have hlt : n / BASE < n := Nat.div_lt_self (Nat.pos_of_ne_zero h) one_lt_BASE
        have hmod : n % BASE < BASE := Nat.mod_lt _ (by decide)
        rw [encodeLoop_pos h, encodeLoop_append, base62Value_append, ih (n / BASE) hlt,
          charIndex_alphaChar hmod]
        simp only [Option.getD_some]
        rw [Nat.mul_comm]
        exact Nat.div_add_mod n BASE

theorem encodeLoop_mem :
    ∀ n : Nat, ∀ c ∈ encodeLoop n [], c ∈ BASE62_ALPHABET := by
  intro n
  induction n using Nat.strong_induction_on with
  | _ n ih =>
      intro c hc
      by_cases h : n = 0
      · rw [h, encodeLoop_zero] at hc; simp at hc
      · have hlt : n / BASE < n := Nat.div_lt_self (Nat.pos_of_ne_zero h) one_lt_BASE
        have hmod : n % BASE < BASE := Nat.mod_lt _ (by decide)
        rw [encodeLoop_pos h, encodeLoop_append] at hc
        rcases List.mem_append.mp hc with hpre | hlast
        · exact ih (n / BASE) hlt c hpre
        · have : c = alphaChar (n % BASE) := by simpa using hlast
          rw [this]
          exact charIndex_isSome_iff_mem.mp (by simp [charIndex_alphaChar hmod])

theorem encodeLoop_ne_nil {n : Nat} (h : n ≠ 0) : encodeLoop n [] ≠ [] := by
  rw [encodeLoop_pos h, encodeLoop_append]
  simp

theorem encodeLoop_head_ne_zero :
    ∀ n : Nat, n ≠ 0 → (encodeLoop n []).head? ≠ some (alphaChar 0) := by
  intro n
  induction n using Nat.strong_induction_on with
  | _ n ih =>
      intro h
      have hlt : n / BASE < n := Nat.div_lt_self (Nat.pos_of_ne_zero h) one_lt_BASE
      have hmod : n % BASE < BASE := Nat.mod_lt _ (by decide)
      rw [encodeLoop_pos h, encodeLoop_append]
      by_cases hq : n / BASE = 0
      · have hmn : n % BASE = n := by
          have := Nat.div_add_mod n BASE
          rw [hq] at this
          simpa using this
        rw [hq, encodeLoop_zero]
        simp only [List.nil_append, List.head?_cons]
        intro habs
        have : charIndex (alphaChar (n % BASE)) = charIndex (alphaChar 0) :=
          congrArg charIndex (Option.some.inj habs)
        rw [charIndex_alphaChar hmod, charIndex_alphaChar (by decide)] at this
        exact h (by rw [← hmn]; exact Option.some.inj this)
      · obtain ⟨a, t, he⟩ := List.exists_cons_of_ne_nil (encodeLoop_ne_nil hq)
        rw [he]
        simp only [List.cons_append, List.head?_cons]
        have := ih (n / BASE) hlt hq
        rw [he] at this
        simpa using this

theorem base62Value_lt :
    ∀ m : List Char, (∀ c ∈ m, c ∈ BASE62_ALPHABET) →
      base62Value m < BASE ^ m.length := by
  intro m
  induction m with
  | nil => intro _; simp [base62Value]
  | cons c rest ih =>
      intro hvalid
      have hc : (charIndex c).isSome :=
        charIndex_isSome_iff_mem.mpr (hvalid c (List.mem_cons_self c rest))
      rcases Option.isSome_iff_exists.mp hc with ⟨j, hj⟩
      have hjlt : j < BASE := charIndex_lt_BASE hj
      have h1 : base62Value rest < BASE ^ rest.length :=
        ih (fun x hx => hvalid x (List.mem_cons_of_mem c hx))
      have h2 : (charIndex c).getD 0 + 1 ≤ BASE := by
        rw [hj]; simpa using hjlt
      calc base62Value (c :: rest)
          = (charIndex c).getD 0 * BASE ^ rest.length + base62Value rest := rfl
        _ < (charIndex c).getD 0 * BASE ^ rest.length + BASE ^ rest.length :=
            Nat.add_lt_add_left h1 _
        _ = ((charIndex c).getD 0 + 1) * BASE ^ rest.length := by ring
        _ ≤ BASE * BASE ^ rest.length := Nat.mul_le_mul_right _ h2
        _ = BASE ^ (c :: rest).length := by
            rw [List.length_cons, pow_succ]; ring

theorem base62Value_head_lower {c : Char} {t : List Char} {j : Nat}
    (hj : charIndex c = some j) (hj1 : 1 ≤ j) :
    BASE ^ t.length ≤ base62Value (c :: t) := by
  rw [base62Value_cons, hj]
  simp only [Option.getD_some]
  calc BASE ^ t.length = 1 * BASE ^ t.length := by ring
    _ ≤ j * BASE ^ t.length := Nat.mul_le_mul_right _ hj1
    _ ≤ j * BASE ^ t.length + base62Value t := Nat.le_add_right _ _

/-- The spec's per-row line contract: "- name (unit) — amount". -/
def renderLine (name unit : String) (amount : Nat) : String :=
  "- " ++ name ++ " (" ++ unit ++ ") — " ++ toString amount

theorem joinParts_append (l1 l2 : List String) :
    joinParts (l1 ++ l2) = joinParts l1 ++ joinParts l2 := by
  induction l1 with
  | nil => simp [joinParts]
  | cons p rest ih => simp [joinParts, ih, String.append_assoc]

theorem foldl_snoc_map {α : Type} (f : α → String) :
    ∀ (rows : List α) (parts : List String),
      rows.foldl (fun acc item => acc ++ [f item]) parts = parts ++ rows.map f := by
  intro rows
  induction rows with
  | nil => intro parts; simp
  | cons r rest ih =>
      intro parts
      rw [List.foldl_cons, List.map_cons, ih (parts ++ [f r])]
      simp

theorem newline_renderLine (name unit : String) (amount : Nat) :
    "\n- " ++ name ++ " (" ++ unit ++ ") — " ++ toString amount =
      "\n" ++ renderLine name unit amount := by
  have h : ("\n- " : String) = "\n" ++ "- " := rfl
  simp only [renderLine, h, String.append_assoc]

theorem generate_content_eq (rows : List IngredientRow) :
    generate_shopping_list_content rows =
      "Список покупок:\n" ++
        (if rows.isEmpty then "Ваш список пуст."
         else joinParts (rows.map (fun item =>
           "\n" ++ renderLine (item.name.getD "Без названия")
             (item.measurement_unit.getD "шт.") (item.total_amount.getD 0)))) := by
  by_cases h : rows.isEmpty
  · simp [generate_shopping_list_content, h, joinParts, String.append_empty]
  · have h' : rows.isEmpty = false := by simpa using h
    simp only [generate_shopping_list_content, h', Bool.false_eq_true, if_false]
    rw [foldl_snoc_map
      (fun item : IngredientRow =>
        "\n- " ++ item.name.getD "Без названия" ++ " (" ++
          item.measurement_unit.getD "шт." ++ ") — " ++
          toString (item.total_amount.getD 0))
      rows ["Список покупок:\n"]]
    rw [joinParts_append]
    have hmap :
        (fun item : IngredientRow =>
          "\n- " ++ item.name.getD "Без названия" ++ " (" ++
            item.measurement_unit.getD "шт." ++ ") — " ++
            toString (item.total_amount.getD 0)) =
        (fun item : IngredientRow =>
          "\n" ++ renderLine (item.name.getD "Без названия")
            (item.measurement_unit.getD "шт.") (item.total_amount.getD 0)) :=
      funext (fun item => newline_renderLine _ _ _)
    rw [hmap]
    simp [joinParts, String.append_empty]

theorem encode_ok_of_nat (n : Nat) :
    encode_base62 (PyNum.int (n : Int)) = Except.ok (encodeNat n) := by
  have hn : ¬ ((n : Int) < 0) := by omega
  simp [encode_base62, hn]

theorem decode_encodeNat (n : Nat) : decode_base62 (encodeNat n) = Except.ok n := by
  rw [decode_eq_decodeAux]
  by_cases h : n = 0
  · subst h
    have h0 : charIndex (alphaChar 0) = some 0 := charIndex_alphaChar (by decide)
    simp [encodeNat, decodeAux, h0]
  · rw [show encodeNat n = encodeLoop n [] from if_neg h]
    rw [decodeAux_ok (encodeLoop n []) 0
      (fun c hc => charIndex_isSome_iff_mem.mpr (encodeLoop_mem n c hc))]
    rw [encodeLoop_val n]
    simp

/-- C1: round-trip law — for every non-negative integer `n`,
`encode_base62` succeeds on `n` and `decode_base62` maps the produced
string back to `n`. -/
theorem base62_roundtrip (n : Nat) :
    ∃ s, encode_base62 (PyNum.int (n : Int)) = Except.ok s ∧
      decode_base62 s = Except.ok n :=
  ⟨encodeNat n, encode_ok_of_nat n, decode_encodeNat n⟩

/-- C2: `decode_base62` reads its input left-to-right as a base-62
positional number (most significant digit first) and returns that value
when every character is in the alphabet; it returns an error exactly when
some character is outside the alphabet. -/
theorem decode_base62_spec (s : List Char) :
    ((∀ c ∈ s, c ∈ BASE62_ALPHABET) → decode_base62 s = Except.ok (base62Value s)) ∧
    ((∃ c ∈ s, c ∉ BASE62_ALPHABET) ↔ ∃ m, decode_base62 s = Except.error m) := by
  refine ⟨?_, ?_, ?_⟩
  · intro h
    rw [decode_eq_decodeAux,
      decodeAux_ok s 0 (fun c hc => charIndex_isSome_iff_mem.mpr (h c hc))]
    simp
  · rintro ⟨c, hc, hmem⟩
    rw [decode_eq_decodeAux]
    refine decodeAux_err s 0 ⟨c, hc, ?_⟩
    exact Option.not_isSome_iff_eq_none.mp
      (fun hs => hmem (charIndex_isSome_iff_mem.mp hs))
  · rintro ⟨m, hm⟩
    by_contra hall
    push_neg at hall
    have hok := decodeAux_ok s 0
      (fun c hc => charIndex_isSome_iff_mem.mpr (hall c hc))
    rw [decode_eq_decodeAux, hok] at hm
    exact absurd hm (by simp)

theorem decode_base62_spec_witness :
    decode_base62 ['z'] = Except.ok (base62Value ['z']) :=
  (decode_base62_spec ['z']).1 (by decide)

/-- C3: `encode_base62` errors exactly on a non-integer or a negative
integer argument, and succeeds with a string on every non-negative
integer. -/
theorem encode_base62_invalid_input :
    (∀ v : PyNum, (∃ m, encode_base62 v = Except.error m) ↔
        (v = PyNum.nonInt ∨ ∃ i : Int, v = PyNum.int i ∧ i < 0)) ∧
    (∀ n : Nat, ∃ s, encode_base62 (PyNum.int (n : Int)) = Except.ok s) := by
  constructor
  · intro v
    constructor
    · rintro ⟨m, hm⟩
      cases v with
      | nonInt => exact Or.inl rfl
      | int i =>
          refine Or.inr ⟨i, rfl, ?_⟩
          by_contra hge
          push_neg at hge
          rw [show encode_base62 (PyNum.int i) = Except.ok (encodeNat i.toNat) by
            simp [encode_base62, Int.not_lt.mpr hge]] at hm
          exact absurd hm (by simp)
    · rintro (rfl | ⟨i, rfl, hneg⟩)
      · exact ⟨_, rfl⟩
      · exact ⟨"Число должно быть неотрицательным целым.",
          by simp [encode_base62, hneg]⟩
  · intro n
    exact ⟨encodeNat n, encode_ok_of_nat n⟩

theorem encode_base62_invalid_input_witness :
    ∃ m, encode_base62 (PyNum.int (-5)) = Except.error m :=
  (encode_base62_invalid_input.1 (PyNum.int (-5))).mpr
    (Or.inr ⟨-5, rfl, by decide⟩)

/-- C4: for every positive `n`, `encode_base62`'s output is the
minimal-length base-62 representation of `n`: all its characters are in
the alphabet, it evaluates to `n`, its first character is not the
alphabet's zero character, and no alphabet string of smaller length
evaluates to `n`. -/
theorem encode_base62_minimal (n : Nat) (h : 0 < n) :
    (∀ c ∈ encodeNat n, c ∈ BASE62_ALPHABET) ∧
    base62Value (encodeNat n) = n ∧
    (encodeNat n).head? ≠ some (alphaChar 0) ∧
    (∀ m : List Char, (∀ c ∈ m, c ∈ BASE62_ALPHABET) → base62Value m = n →
      (encodeNat n).length ≤ m.length) := by
  have hne : n ≠ 0 := Nat.pos_iff_ne_zero.mp h
  have henc : encodeNat n = encodeLoop n [] := if_neg hne
  refine ⟨?_, ?_, ?_, ?_⟩
  · rw [henc]; exact encodeLoop_mem n
  · rw [henc]; exact encodeLoop_val n
  · rw [henc]; exact encodeLoop_head_ne_zero n hne
  · intro m hmvalid hmval
    obtain ⟨c, t, hct⟩ := List.exists_cons_of_ne_nil (henc ▸ encodeLoop_ne_nil hne)
    have hcmem : c ∈ encodeNat n := by rw [hct]; exact List.mem_cons_self c t
    have hcsome : (charIndex c).isSome :=
      charIndex_isSome_iff_mem.mpr ((henc ▸ encodeLoop_mem n) c hcmem)
    rcases Option.isSome_iff_exists.mp hcsome with ⟨j, hj⟩
    have hj1 : 1 ≤ j := by
      rcases Nat.eq_zero_or_pos j with hj0 | hj0
      · subst hj0
        have hc0 : alphaChar 0 = c := alphaChar_charIndex hj
        have : (encodeNat n).head? = some (alphaChar 0) := by
          rw [hct, hc0]; rfl
        exact absurd this (henc ▸ encodeLoop_head_ne_zero n hne)
      · exact hj0
    have hlow : BASE ^ t.length ≤ n := by
      calc BASE ^ t.length ≤ base62Value (c :: t) := base62Value_head_lower hj hj1
        _ = base62Value (encodeNat n) := by rw [hct]
        _ = n := henc ▸ encodeLoop_val n
    have hupp : n < BASE ^ m.length := hmval ▸ base62Value_lt m hmvalid
    have hpow : BASE ^ t.length < BASE ^ m.length := Nat.lt_of_le_of_lt hlow hupp
    have hlen : t.length < m.length := (Nat.pow_lt_pow_iff_right one_lt_BASE).mp hpow
    have : (encodeNat n).length = t.length + 1 := by rw [hct]; rfl
    omega

theorem encode_base62_minimal_witness :
    0 < 125 ∧ base62Value (encodeNat 125) = 125 :=
  ⟨by decide, (encode_base62_minimal 125 (by decide)).2.1⟩

/-- C5: `encode_base62(0)` succeeds and returns exactly the single first
character of the alphabet, which is the digit zero. -/
theorem encode_base62_zero :
    encode_base62 (PyNum.int 0) = Except.ok [alphaChar 0] ∧ alphaChar 0 = '0' :=
  ⟨rfl, rfl⟩

/-- C6: `decode_base62` accepts non-canonical encodings — prepending the
alphabet's zero character to a string over the alphabet leaves the decoded
integer unchanged. -/
theorem decode_base62_leading_zero (s : List Char)
    (h : ∀ c ∈ s, c ∈ BASE62_ALPHABET) :
    decode_base62 (alphaChar 0 :: s) = decode_base62 s := by
  clear h
  rw [decode_eq_decodeAux, decode_eq_decodeAux]
  have h0 : charIndex (alphaChar 0) = some 0 := charIndex_alphaChar (by decide)
  simp only [decodeAux, h0]
  norm_num

theorem decode_base62_leading_zero_witness :
    decode_base62 (alphaChar 0 :: ['7']) = decode_base62 ['7'] :=
  decode_base62_leading_zero ['7'] (by decide)

/-- C7: the renderer emits the header followed by one formatted line per
row, in input order, each in the exact form "- name (unit) — amount"
(prefixed by its newline); on the empty sequence it emits exactly the
header plus the fixed empty-list placeholder and no per-row lines. -/
theorem generate_shopping_list_content_renders :
    (generate_shopping_list_content [] = "Список покупок:\n" ++ "Ваш список пуст.") ∧
    (∀ ts : List (String × String × Nat), ts ≠ [] →
      generate_shopping_list_content
          (ts.map (fun t => IngredientRow.mk (some t.1) (some t.2.1) (some t.2.2))) =
        "Список покупок:\n" ++
          joinParts (ts.map (fun t => "\n" ++ renderLine t.1 t.2.1 t.2.2))) := by
  constructor
  · simp [generate_content_eq]
  · intro ts hne
    rw [generate_content_eq]
    have hempty :
        (ts.map (fun t : String × String × Nat =>
          IngredientRow.mk (some t.1) (some t.2.1) (some t.2.2))).isEmpty = false := by
      cases ts with
      | nil => exact absurd rfl hne
      | cons t ts' => rfl
    rw [hempty]
    simp only [Bool.false_eq_true, if_false, List.map_map]
    rfl

theorem generate_shopping_list_content_renders_witness :
    generate_shopping_list_content
        [IngredientRow.mk (some "Flour") (some "g") (some 500),
         IngredientRow.mk (some "Sugar") (some "g") (some 200)] =
      "Список покупок:\n" ++
        joinParts ["\n" ++ renderLine "Flour" "g" 500,
          "\n" ++ renderLine "Sugar" "g" 200] := by
  have := generate_shopping_list_content_renders.2
    [("Flour", "g", 500), ("Sugar", "g", 200)] (by simp)
  simpa using this

/-- C8: the renderer is total and never errors — for every row list it
returns a string, substituting "Без названия" for a missing name, "шт."
for a missing unit and 0 for a missing amount. -/
theorem generate_shopping_list_content_lenient (rows : List IngredientRow) :
    (rows = [] → generate_shopping_list_content rows =
      "Список покупок:\n" ++ "Ваш список пуст.") ∧
    (rows ≠ [] → generate_shopping_list_content rows =
      "Список покупок:\n" ++ joinParts (rows.map (fun item =>
        "\n" ++ renderLine (item.name.getD "Без названия")
          (item.measurement_unit.getD "шт.") (item.total_amount.getD 0)))) := by
  constructor
  · rintro rfl; simp [generate_content_eq]
  · intro hne
    rw [generate_content_eq]
    have hempty : rows.isEmpty = false := by
      cases rows with
      | nil => exact absurd rfl hne
      | cons r rs => rfl
    rw [hempty]
    simp

theorem generate_shopping_list_content_lenient_witness :
    generate_shopping_list_content [IngredientRow.mk none none none] =
      "Список покупок:\n" ++ joinParts ["\n" ++ renderLine "Без названия" "шт." 0] := by
  have := (generate_shopping_list_content_lenient [IngredientRow.mk none none none]).2
    (List.cons_ne_nil _ _)
  simpa using this

/-- C9: `decode_base62` on the empty string succeeds with 0 (the loop body
never runs), so the short-link view looks up recipe id 0 for an empty path
segment instead of rejecting it. -/
theorem decode_base62_empty :
    decode_base62 [] = Except.ok 0 ∧
      shortLinkResolve (some []) = ShortLinkResult.lookup 0 :=
  ⟨rfl, rfl⟩

/-- C10: the `while` loop of `encode_base62` terminates on every
non-negative integer: the loop variable strictly decreases under floor
division by the base, and `n` fuel units always suffice to reach the
result of the loop. -/
theorem encode_base62_terminates :
    (∀ n : Nat, 0 < n → n / BASE < n) ∧
    (∀ (fuel n : Nat) (acc : List Char), n ≤ fuel →
      encodeLoopFuel fuel n acc = some (encodeLoop n acc)) := by
  constructor
  · intro n hn
    exact Nat.div_lt_self hn one_lt_BASE
  · intro fuel
    induction fuel with
    | zero =>
        intro n acc hle
        have hz : n = 0 := Nat.le_zero.mp hle
        subst hz
        rw [encodeLoop_zero]
        rfl
    | succ f ih =>
        intro n acc hle
        cases n with
        | zero => rw [encodeLoop_zero]; rfl
        | succ m =>
            have hne : m + 1 ≠ 0 := Nat.succ_ne_zero m
            rw [encodeLoop_pos hne]
            have hlt : (m + 1) / BASE < m + 1 :=
              Nat.div_lt_self (Nat.succ_pos m) one_lt_BASE
            have hle' : (m + 1) / BASE ≤ f := by omega
            exact ih ((m + 1) / BASE) (alphaChar ((m + 1) % BASE) :: acc) hle'

theorem encode_base62_terminates_witness :
    encodeLoopFuel 125 125 [] = some (encodeLoop 125 []) :=
  encode_base62_terminates.2 125 125 [] (Nat.le_refl 125)
